import Mathlib

/-!
Verification of the `htmler` HTML document-model core
(`src/projects/htmler/src/html/mod.rs`): node model, parse entry points,
selector query iterator (`HtmlSelect`), root-element lookup, size hints,
tree-sink construction contract and serialization.

The arena tree mirrors `ego_tree::Tree<NodeKind>`: a vector of nodes with
parent links and ordered child lists, index 0 being the root.  Parts of the
repository that the claims depend on but whose sources are not available
(`node.rs`, `selector/`, `tree_sink.rs`, `serializable.rs`) are modelled
from the specification; each such definition says so in its doc comment.
-/

namespace Htmler

/-- Quirks mode, mirroring `html5ever::tree_builder::QuirksMode`. -/
inductive QuirksMode where
  | noQuirks
  | limitedQuirks
  | quirks
deriving DecidableEq, Repr

/-- The tagged node content, mirroring the repository's `NodeKind`
(`Document | Fragment | Doctype | Comment | Text | Element |
ProcessingInstruction`), with element data reduced to its qualified name and
ordered attribute list. -/
inductive NodeKind where
  | document
  | fragment
  | doctype (name publicId systemId : String)
  | comment (text : String)
  | text (contents : String)
  | element (name : String) (attrs : List (String × String))
  | processingInstruction (target data : String)
deriving DecidableEq, Repr

/-- `NodeKind::is_element`. -/
def NodeKind.is_element : NodeKind → Bool
  | .element _ _ => true
  | _ => false

/-- One arena slot of `ego_tree::Tree`: the node value plus its structural
links (parent index, ordered child indices). -/
structure TreeNode where
  value : NodeKind
  parent : Option Nat
  children : List Nat
deriving DecidableEq, Repr

/-- The arena tree `ego_tree::Tree<NodeKind>`: nodes in arena (insertion)
order; index 0 is the root. -/
structure Tree where
  nodes : List TreeNode
deriving DecidableEq, Repr

/-- `Tree::new(root)`: a one-node tree whose root carries `k`. -/
def Tree.new (k : NodeKind) : Tree :=
  ⟨[⟨k, none, []⟩]⟩

/-- Structural validity of the arena: it is nonempty, the root (index 0) has
no parent, and every other node has a parent. -/
def Tree.wellFormed (t : Tree) : Bool :=
  match t.nodes.map (fun n => n.parent) with
  | [] => false
  | p0 :: rest => p0 == none && rest.all (fun p => p.isSome)

/-- `Html`: parse errors, quirks mode and the node tree
(`src/projects/htmler/src/html/mod.rs`, lines 22–32). -/
structure Html where
  errors : List String
  quirks_mode : QuirksMode
  tree : Tree
deriving DecidableEq, Repr

/-- `Html::new_document()`. -/
def Html.new_document : Html :=
  ⟨[], .noQuirks, Tree.new .document⟩

/-- `Html::new_fragment()`. -/
def Html.new_fragment : Html :=
  ⟨[], .noQuirks, Tree.new .fragment⟩

/-- A node reference as yielded by `ego_tree`'s arena iterator: the arena
index paired with the stored node. -/
abbrev NodeRef := Nat × TreeNode

/-- The underlying traversal of `self.tree.nodes()`: every arena slot in
arena order, with its index. -/
def Tree.nodeRefs (t : Tree) : List NodeRef :=
  t.nodes.enum

/-- The ordered child references of the node at arena index `id`. -/
def Tree.childRefs (t : Tree) (id : Nat) : List NodeRef :=
  match t.nodes.get? id with
  | some n => n.children.filterMap (fun i => (t.nodes.get? i).map (fun c => (i, c)))
  | none => []

/-- The children of the root, as in `self.tree.root().children()`. -/
def Tree.rootChildren (t : Tree) : List NodeRef :=
  t.childRefs 0

/-- Modelled from the spec: `Node::wrap` (in `node.rs`, not under `src/`)
wraps a tree node reference as a query-surface `Node` exactly when the node
is an `Element`; for every other kind it yields nothing.  This matches the
`is_element` guard preceding the `.unwrap()` in `Html::root_element` and the
`Some(element)`/`None` filtering in `HtmlSelect::next`. -/
def Node.wrap (r : NodeRef) : Option NodeRef :=
  if r.2.value.is_element then some r else none

/-- `Html::root_element` (lines 82–85): the first child of the tree's root
whose value `is_element`, wrapped.  The source's
`.expect("html node missing")` panic on absence is embedded as `none`. -/
def Html.root_element (h : Html) : Option NodeRef :=
  (h.tree.rootChildren.find? (fun c => c.2.value.is_element)).bind Node.wrap

/-- A compiled selector's matching relation, abstracted for the query
iterator: the claims about `HtmlSelect` hold for every matcher, so the
selector is any boolean predicate on a node reference. -/
abbrev SelectorFn := NodeRef → Bool

/-- The eligibility test applied inside `HtmlSelect::next`/`next_back`:
the node wraps to an element, has a parent, and matches the selector. -/
def selectPred (sel : SelectorFn) (r : NodeRef) : Bool :=
  (Node.wrap r).isSome && r.2.parent.isSome && sel r

/-- `HtmlSelect::next` (lines 110–122) acting on the remaining slice of the
underlying arena traversal: skip nodes that do not wrap to an element, lack
a parent, or fail the selector; return the first eligible node together
with the traversal remainder. -/
def selectNext (sel : SelectorFn) : List NodeRef → Option NodeRef × List NodeRef
  | [] => (none, [])
  | r :: rest =>
    match Node.wrap r with
    | some element =>
      if element.2.parent.isSome && sel element then (some element, rest)
      else selectNext sel rest
    | none => selectNext sel rest

/-- `HtmlSelect::next_back` (lines 130–141): the same scan over the shared
remaining slice, consuming from the back (`self.inner.by_ref().rev()`). -/
def selectNextBack (sel : SelectorFn) (l : List NodeRef) :
    Option NodeRef × List NodeRef :=
  let (r, rest) := selectNext sel l.reverse
  (r, rest.reverse)

/-- The inner arena iterator's `size_hint`: `ego_tree::iter::Nodes` wraps a
slice iterator, whose size hint is exact — both bounds are the unfiltered
remaining-node count. -/
def innerSizeHint (remaining : List NodeRef) : Nat × Option Nat :=
  (remaining.length, some remaining.length)

/-- `HtmlSelect::size_hint` (lines 124–127): discard the inner lower bound,
report `0`, and pass the inner upper bound through. -/
def selectSizeHint (remaining : List NodeRef) : Nat × Option Nat :=
  (0, (innerSizeHint remaining).2)

/-- One step of `selectNext` on a nonempty slice: yield the head if it is
eligible, otherwise continue on the tail. -/
theorem selectNext_cons (sel : SelectorFn) (x : NodeRef) (xs : List NodeRef) :
    selectNext sel (x :: xs) =
      if selectPred sel x then (some x, xs) else selectNext sel xs := by
  rw [selectNext]
  unfold selectPred Node.wrap
  by_cases he : x.2.value.is_element = true
  · simp [he]
  · simp [he]

/-- When `selectNext` yields a node, the traversal remainder is strictly
shorter than the input slice. -/
theorem selectNext_some_length (sel : SelectorFn) :
    ∀ (l : List NodeRef) (r : NodeRef) (rest : List NodeRef),
      selectNext sel l = (some r, rest) → rest.length < l.length := by
  intro l
  induction l with
  | nil => intro r rest h; simp [selectNext] at h
  | cons x xs ih =>
    intro r rest h
    rw [selectNext_cons] at h
    by_cases hc : selectPred sel x = true
    · simp [hc] at h
      simp [h.2]
    · simp [hc] at h
      exact Nat.lt_succ_of_lt (ih r rest h)

/-- A successful `selectNext` splits the remaining traversal as an
ineligible prefix, the yielded node, and the untouched remainder. -/
theorem selectNext_some_decomp (sel : SelectorFn) :
    ∀ (l : List NodeRef) (r : NodeRef) (rest : List NodeRef),
      selectNext sel l = (some r, rest) →
      ∃ pre, l = pre ++ r :: rest ∧ (∀ x ∈ pre, selectPred sel x = false) ∧
        selectPred sel r = true := by
  intro l
  induction l with
  | nil => intro r rest h; simp [selectNext] at h
  | cons x xs ih =>
    intro r rest h
    rw [selectNext_cons] at h
    by_cases hc : selectPred sel x = true
    · simp [hc] at h
      exact ⟨[], by simp [h.1, h.2], by simp, h.1 ▸ hc⟩
    · simp [hc] at h
      obtain ⟨pre, hsplit, hpre, hr⟩ := ih r rest h
      refine ⟨x :: pre, by simp [hsplit], ?_, hr⟩
      intro y hy
      rcases List.mem_cons.mp hy with hy | hy
      · subst hy; simpa using hc
      · exact hpre y hy

/-- A failed `selectNext` means no remaining node was eligible. -/
theorem selectNext_none (sel : SelectorFn) :
    ∀ (l rest : List NodeRef), selectNext sel l = (none, rest) →
      l.filter (selectPred sel) = [] := by
  intro l
  induction l with
  | nil => intro rest _; simp
  | cons x xs ih =>
    intro rest h
    rw [selectNext_cons] at h
    by_cases hc : selectPred sel x = true
    · simp [hc] at h
    · simp [hc] at h
      simp only [Bool.not_eq_true] at hc
      rw [List.filter_cons, hc]
      simpa using ih rest h

/-- Repeated `HtmlSelect::next`, with the fuel bounding the number of
steps; `drainForward` instantiates the fuel with the slice length, which
always suffices. -/
def drainAux (sel : SelectorFn) : Nat → List NodeRef → List NodeRef
  | 0, _ => []
  | fuel + 1, l =>
    match selectNext sel l with
    | (none, _) => []
    | (some r, rest) => r :: drainAux sel fuel rest

/-- Materialized forward iteration: repeated `HtmlSelect::next` until
exhaustion. -/
def drainForward (sel : SelectorFn) (l : List NodeRef) : List NodeRef :=
  drainAux sel l.length l

/-- Repeated `HtmlSelect::next_back`, fuelled like `drainAux`. -/
def drainBackAux (sel : SelectorFn) : Nat → List NodeRef → List NodeRef
  | 0, _ => []
  | fuel + 1, l =>
    match selectNextBack sel l with
    | (none, _) => []
    | (some r, rest) => r :: drainBackAux sel fuel rest

/-- Materialized backward iteration: repeated `HtmlSelect::next_back` until
exhaustion. -/
def drainBackward (sel : SelectorFn) (l : List NodeRef) : List NodeRef :=
  drainBackAux sel l.length l

/-- With enough fuel, draining forward materializes exactly the eligible
nodes of the remaining traversal, in order. -/
theorem drainAux_eq_filter (sel : SelectorFn) :
    ∀ (fuel : Nat) (l : List NodeRef), l.length ≤ fuel →
      drainAux sel fuel l = l.filter (selectPred sel) := by
  intro fuel
  induction fuel with
  | zero =>
    intro l hl
    rw [Nat.le_zero, List.length_eq_zero] at hl
    subst hl
    simp [drainAux]
  | succ fuel ih =>
    intro l hl
    rw [drainAux]
    cases hsel : selectNext sel l with
    | mk o rest =>
      cases o with
      | none =>
        simp only
        exact (selectNext_none sel l rest hsel).symm
      | some r =>
        simp only
        have hlen := selectNext_some_length sel l r rest hsel
        rw [ih rest (by omega)]
        obtain ⟨pre, hsplit, hpre, hr⟩ := selectNext_some_decomp sel l r rest hsel
        rw [hsplit, List.filter_append, List.filter_cons]
        have hnil : pre.filter (selectPred sel) = [] := by
          rw [List.filter_eq_nil_iff]
          intro x hx
          simp [hpre x hx]
        simp [hnil, hr]

/-- `drainForward` is the selector filter over the traversal. -/
theorem drainForward_eq_filter (sel : SelectorFn) (l : List NodeRef) :
    drainForward sel l = l.filter (selectPred sel) :=
  drainAux_eq_filter sel l.length l (Nat.le_refl _)

/-- Backward draining is forward draining of the reversed slice. -/
theorem drainBackAux_eq_drainAux_reverse (sel : SelectorFn) :
    ∀ (fuel : Nat) (l : List NodeRef),
      drainBackAux sel fuel l = drainAux sel fuel l.reverse := by
  intro fuel
  induction fuel with
  | zero => intro l; simp [drainAux, drainBackAux]
  | succ fuel ih =>
    intro l
    rw [drainAux, drainBackAux]
    cases hsel : selectNext sel l.reverse with
    | mk o rest' =>
      have hback : selectNextBack sel l = (o, rest'.reverse) := by
        unfold selectNextBack
        rw [hsel]
      rw [hback]
      cases o with
      | none => simp only
      | some r =>
        simp only
        rw [ih rest'.reverse, List.reverse_reverse]

/-- `drainBackward` is the reverse of the selector filter. -/
theorem drainBackward_eq_reverse_filter (sel : SelectorFn) (l : List NodeRef) :
    drainBackward sel l = (l.filter (selectPred sel)).reverse := by
  rw [drainBackward, drainBackAux_eq_drainAux_reverse,
    drainAux_eq_filter sel l.length l.reverse (by simp), List.filter_reverse]

/-- C3: For every document and every compiled selector (modelled as an
arbitrary matcher), materializing the backward iteration of `select` yields
exactly the reverse of the list produced by materializing the forward
iteration. -/
theorem select_backward_is_reverse_of_forward (h : Html) (sel : SelectorFn) :
    drainBackward sel h.tree.nodeRefs =
      (drainForward sel h.tree.nodeRefs).reverse := by
  rw [drainBackward_eq_reverse_filter, drainForward_eq_filter]

/-- `Node.wrap` succeeds exactly on element nodes. -/
theorem Node.wrap_isSome (r : NodeRef) :
    (Node.wrap r).isSome = r.2.value.is_element := by
  unfold Node.wrap
  by_cases h : r.2.value.is_element = true
  · simp [h]
  · simp [h]

/-- `Node.wrap` succeeds exactly on elements and returns the same
reference. -/
theorem Node.wrap_eq_some {r e : NodeRef} :
    Node.wrap r = some e ↔ r.2.value.is_element = true ∧ e = r := by
  unfold Node.wrap
  by_cases h : r.2.value.is_element = true
  · simp [h, eq_comm]
  · simp [h]

/-- `Node.wrap` fails exactly on non-elements. -/
theorem Node.wrap_eq_none {r : NodeRef} :
    Node.wrap r = none ↔ r.2.value.is_element = false := by
  unfold Node.wrap
  by_cases h : r.2.value.is_element = true
  · simp [h]
  · rw [Bool.not_eq_true] at h
    simp [h]

/-- Whatever `selectNext` returns, the remainder is a sublist of the
input slice. -/
theorem selectNext_rest_sublist (sel : SelectorFn) :
    ∀ (l : List NodeRef) (o : Option NodeRef) (rest : List NodeRef),
      selectNext sel l = (o, rest) → List.Sublist rest l := by
  intro l
  induction l with
  | nil =>
    intro o rest h
    simp [selectNext] at h
    simp [h.2]
  | cons x xs ih =>
    intro o rest h
    rw [selectNext_cons] at h
    by_cases hc : selectPred sel x = true
    · simp [hc] at h
      rw [← h.2]
      exact (List.Sublist.refl xs).cons x
    · simp [hc] at h
      exact (ih o rest h).trans ((List.Sublist.refl xs).cons x)

/-- The backward variant of `selectNext_rest_sublist`. -/
theorem selectNextBack_rest_sublist (sel : SelectorFn) (l : List NodeRef)
    (o : Option NodeRef) (rest : List NodeRef)
    (h : selectNextBack sel l = (o, rest)) : List.Sublist rest l := by
  unfold selectNextBack at h
  cases hr : selectNext sel l.reverse with
  | mk o' rest' =>
    rw [hr] at h
    simp at h
    have hsub := (selectNext_rest_sublist sel l.reverse o' rest' hr).reverse
    rw [List.reverse_reverse] at hsub
    exact h.2 ▸ hsub

/-- A node yielded by `selectNext` is eligible, comes from the slice, and —
when the slice has no duplicates — does not remain in the remainder. -/
theorem selectNext_some_spec (sel : SelectorFn) (l : List NodeRef)
    (r : NodeRef) (rest : List NodeRef)
    (h : selectNext sel l = (some r, rest)) :
    selectPred sel r = true ∧ r ∈ l ∧ (l.Nodup → r ∉ rest) := by
  obtain ⟨pre, hsplit, _, hr⟩ := selectNext_some_decomp sel l r rest h
  refine ⟨hr, by rw [hsplit]; simp, ?_⟩
  intro hnd
  have hsub : List.Sublist (r :: rest) l := by
    rw [hsplit]
    exact List.sublist_append_right pre (r :: rest)
  have := (hnd.sublist hsub)
  exact (List.nodup_cons.mp this).1

/-- The backward variant of `selectNext_some_spec`. -/
theorem selectNextBack_some_spec (sel : SelectorFn) (l : List NodeRef)
    (r : NodeRef) (rest : List NodeRef)
    (h : selectNextBack sel l = (some r, rest)) :
    selectPred sel r = true ∧ r ∈ l ∧ (l.Nodup → r ∉ rest) := by
  unfold selectNextBack at h
  cases hr : selectNext sel l.reverse with
  | mk o' rest' =>
    rw [hr] at h
    simp at h
    obtain ⟨ho, hrest⟩ := h
    subst ho
    obtain ⟨hp, hm, hnd⟩ := selectNext_some_spec sel l.reverse r rest' hr
    refine ⟨hp, List.mem_reverse.mp hm, ?_⟩
    intro hl hmem
    exact hnd (List.nodup_reverse.mpr hl) (by rw [← hrest] at hmem; simpa using hmem)

/-- An iteration direction: a call to `next` or to `next_back`. -/
inductive Dir where
  | fwd
  | bwd
deriving DecidableEq, Repr

/-- One call on the shared `HtmlSelect` cursor, in the given direction. -/
def stepSelect (sel : SelectorFn) : Dir → List NodeRef → Option NodeRef × List NodeRef
  | .fwd, l => selectNext sel l
  | .bwd, l => selectNextBack sel l

/-- Run an arbitrary interleaving of `next`/`next_back` calls on the shared
cursor, returning the final remaining slice and the yielded nodes in call
order. -/
def runSelect (sel : SelectorFn) : List Dir → List NodeRef → List NodeRef × List NodeRef
  | [], l => (l, [])
  | d :: ds, l =>
    let step := stepSelect sel d l
    let res := runSelect sel ds step.2
    match step.1 with
    | none => res
    | some r => (res.1, r :: res.2)

/-- Direction-independent form of the sublist and yield lemmas. -/
theorem stepSelect_spec (sel : SelectorFn) (d : Dir) (l : List NodeRef)
    (o : Option NodeRef) (rest : List NodeRef)
    (h : stepSelect sel d l = (o, rest)) :
    List.Sublist rest l ∧
      (∀ r, o = some r →
        selectPred sel r = true ∧ r ∈ l ∧ (l.Nodup → r ∉ rest)) := by
  cases d with
  | fwd =>
    refine ⟨selectNext_rest_sublist sel l o rest h, ?_⟩
    intro r hr
    subst hr
    exact selectNext_some_spec sel l r rest h
  | bwd =>
    refine ⟨selectNextBack_rest_sublist sel l o rest h, ?_⟩
    intro r hr
    subst hr
    exact selectNextBack_some_spec sel l r rest h

/-- Invariant of the shared cursor under any interleaving of `next` and
`next_back`: the remaining slice is a sublist of the start slice, the
yielded nodes are pairwise distinct (given a duplicate-free start slice),
every yielded node is an eligible node of the start slice, and no yielded
node remains in the cursor. -/
theorem runSelect_spec (sel : SelectorFn) :
    ∀ (ops : List Dir) (l : List NodeRef), l.Nodup →
      List.Sublist (runSelect sel ops l).1 l ∧
      (runSelect sel ops l).2.Nodup ∧
      (∀ y ∈ (runSelect sel ops l).2, selectPred sel y = true ∧ y ∈ l) ∧
      (∀ y ∈ (runSelect sel ops l).2, y ∉ (runSelect sel ops l).1) := by
  intro ops
  induction ops with
  | nil =>
    intro l hnd
    simp [runSelect]
  | cons d ds ih =>
    intro l hnd
    cases hstep : stepSelect sel d l with
    | mk o rest =>
      obtain ⟨hsub, hsome⟩ := stepSelect_spec sel d l o rest hstep
      have hndrest : rest.Nodup := hnd.sublist hsub
      obtain ⟨ihsub, ihnd, ihmem, ihrem⟩ := ih rest hndrest
      cases o with
      | none =>
        have hrun : runSelect sel (d :: ds) l = runSelect sel ds rest := by
          simp only [runSelect, hstep]
        simp only [hrun]
        exact ⟨ihsub.trans hsub, ihnd,
          fun y hy => ⟨(ihmem y hy).1, hsub.subset (ihmem y hy).2⟩, ihrem⟩
      | some r =>
        obtain ⟨hpr, hrl, hrrest⟩ := hsome r rfl
        have hrun : runSelect sel (d :: ds) l =
            ((runSelect sel ds rest).1, r :: (runSelect sel ds rest).2) := by
          simp only [runSelect, hstep]
        simp only [hrun]
        refine ⟨ihsub.trans hsub, ?_, ?_, ?_⟩
        · rw [List.nodup_cons]
          exact ⟨fun hc => (hrrest hnd) ((ihmem r hc).2), ihnd⟩
        · intro y hy
          rcases List.mem_cons.mp hy with hy | hy
          · subst hy; exact ⟨hpr, hrl⟩
          · exact ⟨(ihmem y hy).1, hsub.subset (ihmem y hy).2⟩
        · intro y hy
          rcases List.mem_cons.mp hy with hy | hy
          · subst hy
            intro hc
            exact (hrrest hnd) (ihsub.subset hc)
          · exact ihrem y hy

/-- The arena traversal never repeats a node reference: indices are
distinct. -/
theorem Tree.nodeRefs_nodup (t : Tree) : t.nodeRefs.Nodup :=
  (List.nodup_enum_map_fst t.nodes).of_map

/-- C4: at every point during iteration — after any interleaving of `next`
and `next_back` calls — the `select` iterator's `size_hint` reports lower
bound exactly 0 and upper bound exactly the unfiltered remaining-node count
of the underlying traversal. -/
theorem select_size_hint_zero_and_remaining (h : Html) (sel : SelectorFn)
    (ops : List Dir) :
    selectSizeHint (runSelect sel ops h.tree.nodeRefs).1 =
      (0, some (runSelect sel ops h.tree.nodeRefs).1.length) :=
  rfl

/-- C10: across any interleaving of `next` and `next_back` on one shared
`HtmlSelect` cursor, no node is yielded more than once, and every yielded
node is one of the tree's matching (eligible) nodes. -/
theorem select_interleaving_no_duplicates (h : Html) (sel : SelectorFn)
    (ops : List Dir) :
    (runSelect sel ops h.tree.nodeRefs).2.Nodup ∧
      ∀ y ∈ (runSelect sel ops h.tree.nodeRefs).2,
        y ∈ h.tree.nodeRefs.filter (selectPred sel) := by
  obtain ⟨_, hnd, hmem, _⟩ :=
    runSelect_spec sel ops h.tree.nodeRefs h.tree.nodeRefs_nodup
  exact ⟨hnd, fun y hy =>
    List.mem_filter.mpr ⟨(hmem y hy).2, (hmem y hy).1⟩⟩

/-- C9: every node yielded by `select`, forward or backward, is an
`Element` node; all other node kinds are skipped. -/
theorem select_yields_only_elements (h : Html) (sel : SelectorFn)
    (r : NodeRef)
    (hr : r ∈ drainForward sel h.tree.nodeRefs ∨
          r ∈ drainBackward sel h.tree.nodeRefs) :
    r.2.value.is_element = true := by
  have hpred : selectPred sel r = true := by
    rcases hr with hr | hr
    · rw [drainForward_eq_filter] at hr
      exact (List.mem_filter.mp hr).2
    · rw [drainBackward_eq_reverse_filter] at hr
      rw [List.mem_reverse] at hr
      exact (List.mem_filter.mp hr).2
  unfold selectPred at hpred
  rw [Bool.and_assoc] at hpred
  have := (Bool.and_eq_true _ _).mp hpred
  rw [← Node.wrap_isSome]
  exact this.1

/-- A successful `find?` splits the list at the first satisfying element. -/
theorem find?_some_decomp {α : Type} (p : α → Bool) :
    ∀ (l : List α) (a : α), l.find? p = some a →
      ∃ pre post, l = pre ++ a :: post ∧ (∀ x ∈ pre, p x = false) ∧
        p a = true := by
  intro l
  induction l with
  | nil => intro a h; simp at h
  | cons x xs ih =>
    intro a h
    rw [List.find?_cons] at h
    by_cases hp : p x = true
    · simp [hp] at h
      exact ⟨[], xs, by simp [h], by simp, h ▸ hp⟩
    · rw [Bool.not_eq_true] at hp
      simp [hp] at h
      obtain ⟨pre, post, hsplit, hpre, hpa⟩ := ih a h
      refine ⟨x :: pre, post, by simp [hsplit], ?_, hpa⟩
      intro y hy
      rcases List.mem_cons.mp hy with hy | hy
      · subst hy; exact hp
      · exact hpre y hy

/-- C1: `root_element` returns the first child of the tree's root that is an
`Element` node, and signals "not found" (the embedded outcome of the
source's `.expect("html node missing")`) exactly when the root has no
element child. -/
theorem root_element_first_element_child (h : Html) :
    (h.root_element = none ↔
      ∀ c ∈ h.tree.rootChildren, c.2.value.is_element = false) ∧
    (∀ c, h.root_element = some c →
      c.2.value.is_element = true ∧
      ∃ pre post, h.tree.rootChildren = pre ++ c :: post ∧
        ∀ x ∈ pre, x.2.value.is_element = false) := by
  constructor
  · unfold Html.root_element
    cases hf : h.tree.rootChildren.find? (fun c => c.2.value.is_element) with
    | none =>
      simp only [Option.none_bind]
      constructor
      · intro _ c hc
        have := List.find?_eq_none.mp hf c hc
        simpa using this
      · intro _; trivial
    | some c =>
      have hc := List.find?_some hf
      simp only [Option.some_bind]
      constructor
      · intro hw
        rw [Node.wrap_eq_none] at hw
        simp at hc
        rw [hc] at hw
        cases hw
      · intro hall
        have hmem : c ∈ h.tree.rootChildren := List.mem_of_find?_eq_some hf
        have := hall c hmem
        simp at hc
        rw [hc] at this
        cases this
  · intro c hc
    unfold Html.root_element at hc
    cases hf : h.tree.rootChildren.find? (fun x => x.2.value.is_element) with
    | none => rw [hf] at hc; simp at hc
    | some c' =>
      rw [hf] at hc
      simp only [Option.some_bind] at hc
      obtain ⟨helem', hcc⟩ := Node.wrap_eq_some.mp hc
      subst hcc
      obtain ⟨pre, post, hsplit, hpre, hpa⟩ :=
        find?_some_decomp (fun x => x.2.value.is_element) h.tree.rootChildren c hf
      exact ⟨helem', pre, post, hsplit, hpre⟩

/-- Node references come from the arena: membership in the traversal means
the arena slot at that index holds that node. -/
theorem mem_nodeRefs (t : Tree) (r : NodeRef) (hr : r ∈ t.nodeRefs) :
    t.nodes[r.1]? = some r.2 := by
  obtain ⟨i, a⟩ := r
  rw [Tree.nodeRefs] at hr
  exact List.mk_mem_enum_iff_getElem?.mp hr

/-- C5: on a structurally valid tree, `select` (forward or backward) never
yields the root: every yielded reference has a parent and its arena index
is not the root index 0. -/
theorem select_never_yields_root (h : Html) (sel : SelectorFn)
    (hwf : h.tree.wellFormed = true) (r : NodeRef)
    (hr : r ∈ drainForward sel h.tree.nodeRefs ∨
          r ∈ drainBackward sel h.tree.nodeRefs) :
    r.2.parent.isSome = true ∧ r.1 ≠ 0 := by
  have hfil : r ∈ h.tree.nodeRefs.filter (selectPred sel) := by
    rcases hr with hr | hr
    · rwa [drainForward_eq_filter] at hr
    · rw [drainBackward_eq_reverse_filter] at hr
      exact List.mem_reverse.mp hr
  have hpred := (List.mem_filter.mp hfil).2
  have hmem := (List.mem_filter.mp hfil).1
  unfold selectPred at hpred
  rw [Bool.and_assoc, Bool.and_eq_true, Bool.and_eq_true] at hpred
  refine ⟨hpred.2.1, ?_⟩
  intro h0
  have hslot := mem_nodeRefs h.tree r hmem
  rw [h0] at hslot
  rw [Tree.wellFormed] at hwf
  cases hn : h.tree.nodes with
  | nil => rw [hn] at hwf; cases hwf
  | cons n0 rest =>
    rw [hn] at hwf hslot
    rw [List.map_cons] at hwf
    simp only [Bool.and_eq_true] at hwf
    have hn0 : n0.parent = none := by
      have := hwf.1
      simpa using this
    simp at hslot
    rw [← hslot, hn0] at hpred
    simp at hpred

/-- Concrete fixture: a document root with a comment child and an element
child, as produced by parsing `<!-- c --><p></p>`-like input. -/
def pNode : TreeNode := ⟨.element "p" [], some 0, []⟩

/-- Concrete fixture: the comment child. -/
def commentNode : TreeNode := ⟨.comment "c", some 0, []⟩

/-- Concrete fixture: the arena of the two-child document. -/
def exTree : Tree := ⟨[⟨.document, none, [1, 2]⟩, commentNode, pNode]⟩

/-- Concrete fixture: the document wrapper. -/
def exHtml : Html := ⟨[], .noQuirks, exTree⟩

/-- Concrete fixture: a selector matching every node. -/
def selTrue : SelectorFn := fun _ => true

/-- Witness for C1 at the concrete document: the lookup skips the comment
child and returns the element child. -/
theorem root_element_first_element_child_witness :
    (2, pNode).2.value.is_element = true ∧
    ∃ pre post, exHtml.tree.rootChildren = pre ++ (2, pNode) :: post ∧
      ∀ x ∈ pre, x.2.value.is_element = false :=
  (root_element_first_element_child exHtml).2 (2, pNode) (by decide)

/-- Witness for C5 at the concrete document: the matched element child has a
parent and is not the root. -/
theorem select_never_yields_root_witness :
    (2, pNode).2.parent.isSome = true ∧ (2, pNode).1 ≠ 0 :=
  select_never_yields_root exHtml selTrue (by decide) (2, pNode)
    (Or.inl (by decide))

/-- Witness for C9 at the concrete document: the yielded node is an
element. -/
theorem select_yields_only_elements_witness :
    (2, pNode).2.value.is_element = true :=
  select_yields_only_elements exHtml selTrue (2, pNode) (Or.inl (by decide))

/-- Modelled from the spec: the tree-construction contract of §4.1
(`tree_sink.rs` is not under `src/`).  One callback from the external
tokenizer: `set_quirks_mode`, `parse_error`, creation-plus-attachment of an
element/text/comment under a parent handle, `append_doctype` (attached to
the document root) and `append_before_sibling`.  `get_document` and
`same_node` are read-only and need no event. -/
inductive SinkEvent where
  | set_quirks_mode (m : QuirksMode)
  | parse_error (msg : String)
  | append_element (parent : Nat) (name : String) (attrs : List (String × String))
  | append_text (parent : Nat) (contents : String)
  | append_comment (parent : Nat) (text : String)
  | append_doctype (name publicId systemId : String)
  | append_before_sibling (sibling : Nat) (kind : NodeKind)
deriving DecidableEq, Repr

/-- Insert `newId` immediately before the first occurrence of `sibling`. -/
def insertBeforeId : List Nat → Nat → Nat → List Nat
  | [], _, _ => []
  | x :: xs, sibling, newId =>
    if x = sibling then newId :: x :: xs
    else x :: insertBeforeId xs sibling newId

/-- Modelled from the spec: `append_child` attaches a freshly interned node
carrying `k` as the last child of `parent`.  An invalid parent handle is a
programming-contract violation, never produced by the tokenizer; it is
embedded as a no-op so that construction cannot abort. -/
def Tree.appendChild (t : Tree) (parent : Nat) (k : NodeKind) : Tree :=
  match t.nodes.get? parent with
  | none => t
  | some pn =>
    let newId := t.nodes.length
    ⟨t.nodes.set parent { pn with children := pn.children ++ [newId] } ++
      [⟨k, some parent, []⟩]⟩

/-- Modelled from the spec: `append_before_sibling` inserts a new node
carrying `k` immediately before `sibling` under the same parent; invalid
handles are embedded as no-ops. -/
def Tree.insertBefore (t : Tree) (sibling : Nat) (k : NodeKind) : Tree :=
  match t.nodes.get? sibling with
  | none => t
  | some sn =>
    match sn.parent with
    | none => t
    | some p =>
      match t.nodes.get? p with
      | none => t
      | some pn =>
        let newId := t.nodes.length
        ⟨t.nodes.set p
            { pn with children := insertBeforeId pn.children sibling newId } ++
          [⟨k, some p, []⟩]⟩

/-- Modelled from the spec: the effect of one tokenizer callback on the
`Html` sink state.  `parse_error` appends to the diagnostics and never
aborts; `set_quirks_mode` records the mode; the append operations grow the
tree. -/
def processEvent (h : Html) : SinkEvent → Html
  | .set_quirks_mode m => { h with quirks_mode := m }
  | .parse_error msg => { h with errors := h.errors ++ [msg] }
  | .append_element p name attrs =>
    { h with tree := h.tree.appendChild p (.element name attrs) }
  | .append_text p s => { h with tree := h.tree.appendChild p (.text s) }
  | .append_comment p s => { h with tree := h.tree.appendChild p (.comment s) }
  | .append_doctype n pu sy =>
    { h with tree := h.tree.appendChild 0 (.doctype n pu sy) }
  | .append_before_sibling s k => { h with tree := h.tree.insertBefore s k }

/-- Modelled from the spec: `Html::parse_document` drives the sink over the
tokenizer's callback sequence, starting from an empty document. -/
def parse_document (events : List SinkEvent) : Html :=
  events.foldl processEvent Html.new_document

/-- Modelled from the spec: `Html::parse_fragment`, starting from an empty
fragment. -/
def parse_fragment (events : List SinkEvent) : Html :=
  events.foldl processEvent Html.new_fragment

/-- The diagnostic message carried by a `parse_error` event, if any. -/
def sinkErrorMsg : SinkEvent → Option String
  | .parse_error msg => some msg
  | _ => none

/-- Setting an arena slot to a node with the same parent leaves the parent
map unchanged. -/
theorem map_parent_set :
    ∀ (l : List TreeNode) (i : Nat) (pn : TreeNode) (c : List Nat),
      l.get? i = some pn →
      (l.set i { pn with children := c }).map (fun n => n.parent) =
        l.map (fun n => n.parent) := by
  intro l
  induction l with
  | nil => intro i pn c h; simp at h
  | cons x xs ih =>
    intro i pn c h
    cases i with
    | zero =>
      simp at h
      subst h
      simp
    | succ j =>
      simp at h
      simp [List.set_cons_succ, ih j pn c (by simpa using h)]

/-- Appending a child preserves structural validity of the arena. -/
theorem Tree.appendChild_wellFormed (t : Tree) (parent : Nat) (k : NodeKind)
    (hwf : t.wellFormed = true) : (t.appendChild parent k).wellFormed = true := by
  unfold Tree.appendChild
  cases hp : t.nodes.get? parent with
  | none => exact hwf
  | some pn =>
    simp only
    rw [Tree.wellFormed] at hwf ⊢
    rw [List.map_append, map_parent_set t.nodes parent pn _ hp]
    cases hn : t.nodes.map (fun n => n.parent) with
    | nil => rw [hn] at hwf; cases hwf
    | cons p0 ps =>
      rw [hn] at hwf
      simp only [Bool.and_eq_true] at hwf
      simp [hwf.1, hwf.2]

/-- Inserting before a sibling preserves structural validity of the
arena. -/
theorem Tree.insertBefore_wellFormed (t : Tree) (sibling : Nat) (k : NodeKind)
    (hwf : t.wellFormed = true) : (t.insertBefore sibling k).wellFormed = true := by
  unfold Tree.insertBefore
  cases hs : t.nodes.get? sibling with
  | none => exact hwf
  | some sn =>
    simp only
    cases hsp : sn.parent with
    | none => exact hwf
    | some p =>
      simp only
      cases hp : t.nodes.get? p with
      | none => exact hwf
      | some pn =>
        simp only
        rw [Tree.wellFormed] at hwf ⊢
        rw [List.map_append, map_parent_set t.nodes p pn _ hp]
        cases hn : t.nodes.map (fun n => n.parent) with
        | nil => rw [hn] at hwf; cases hwf
        | cons p0 ps =>
          rw [hn] at hwf
          simp only [Bool.and_eq_true] at hwf
          simp [hwf.1, hwf.2]

/-- One sink callback: diagnostics grow exactly by the `parse_error`
payload, and the tree stays structurally valid. -/
theorem processEvent_spec (h : Html) (e : SinkEvent) :
    (processEvent h e).errors = h.errors ++ (sinkErrorMsg e).toList ∧
      (h.tree.wellFormed = true → (processEvent h e).tree.wellFormed = true) := by
  cases e with
  | set_quirks_mode m => simp [processEvent, sinkErrorMsg]
  | parse_error msg => simp [processEvent, sinkErrorMsg]
  | append_element p name attrs =>
    exact ⟨by simp [processEvent, sinkErrorMsg],
      fun hwf => h.tree.appendChild_wellFormed p _ hwf⟩
  | append_text p s =>
    exact ⟨by simp [processEvent, sinkErrorMsg],
      fun hwf => h.tree.appendChild_wellFormed p _ hwf⟩
  | append_comment p s =>
    exact ⟨by simp [processEvent, sinkErrorMsg],
      fun hwf => h.tree.appendChild_wellFormed p _ hwf⟩
  | append_doctype n pu sy =>
    exact ⟨by simp [processEvent, sinkErrorMsg],
      fun hwf => h.tree.appendChild_wellFormed 0 _ hwf⟩
  | append_before_sibling s k =>
    exact ⟨by simp [processEvent, sinkErrorMsg],
      fun hwf => h.tree.insertBefore_wellFormed s k hwf⟩

/-- Folding the sink over any event sequence accumulates exactly the
`parse_error` diagnostics and preserves tree validity. -/
theorem foldl_processEvent_spec :
    ∀ (events : List SinkEvent) (h : Html),
      (events.foldl processEvent h).errors =
        h.errors ++ events.filterMap sinkErrorMsg ∧
      (h.tree.wellFormed = true →
        (events.foldl processEvent h).tree.wellFormed = true) := by
  intro events
  induction events with
  | nil => intro h; simp
  | cons e es ih =>
    intro h
    obtain ⟨he, hw⟩ := processEvent_spec h e
    obtain ⟨ihe, ihw⟩ := ih (processEvent h e)
    constructor
    · rw [List.foldl_cons, ihe, he, List.filterMap_cons]
      cases hmsg : sinkErrorMsg e with
      | none => simp
      | some m => simp
    · intro hwf
      exact ihw (hw hwf)

/-- C2: the parse entry points are total over every tokenizer event
sequence — however malformed the input, they return an `Html` whose
diagnostics list records exactly the `parse_error` messages, in order, and
whose tree is structurally valid; no panic and no hard failure exists in
the model. -/
theorem parse_total_best_effort (events : List SinkEvent) :
    (parse_document events).errors = events.filterMap sinkErrorMsg ∧
    (parse_document events).tree.wellFormed = true ∧
    (parse_fragment events).errors = events.filterMap sinkErrorMsg ∧
    (parse_fragment events).tree.wellFormed = true := by
  obtain ⟨hd, hdw⟩ := foldl_processEvent_spec events Html.new_document
  obtain ⟨hf, hfw⟩ := foldl_processEvent_spec events Html.new_fragment
  refine ⟨by simpa [Html.new_document] using hd, hdw (by decide),
    by simpa [Html.new_fragment] using hf, hfw (by decide)⟩

/-- Modelled from the spec: the serializer of §4.4 (`serializable.rs` is
not under `src/`) walks a (sub)tree recursively, so the tree is taken in
structural form: a node kind together with its child subtrees. -/
inductive DomNode where
  | node (kind : NodeKind) (children : List DomNode)

/-- Modelled from the spec: the fixed HTML void-element set (line break,
image, and the rest of the standard list); void elements never emit a
closing tag and ignore any children. -/
def isVoidElement (name : String) : Bool :=
  ["area", "base", "basefont", "bgsound", "br", "col", "embed", "frame",
    "hr", "img", "input", "keygen", "link", "meta", "param", "source",
    "track", "wbr"].contains name

/-- Modelled from the spec: raw-text elements (script, style) emit their
text content verbatim, unescaped. -/
def isRawTextElement (name : String) : Bool :=
  ["script", "style"].contains name

/-- Escape one character of an ordinary text node: the minimal reserved set
`&`, `<`, `>` and the non-breaking space. -/
def escapeChar (c : Char) : String :=
  if c = '&' then "&amp;"
  else if c = '<' then "&lt;"
  else if c = '>' then "&gt;"
  else if c = ' ' then "&nbsp;"
  else String.singleton c

/-- Escape an ordinary text node. -/
def escapeText (s : String) : String :=
  String.join (s.toList.map escapeChar)

/-- Render an attribute list as ` key="value"` pairs. -/
def attrsText (attrs : List (String × String)) : String :=
  String.join (attrs.map (fun a => " " ++ a.1 ++ "=\x22" ++ a.2 ++ "\x22"))

/-- An output sink: consumes the serializer state and a chunk, and may fail
with an I/O error.  The in-memory sink below never fails; an external
stream sink may. -/
abbrev Writer (σ : Type) := σ → String → Except String σ

mutual

/-- Modelled from the spec: serialize one node into the sink, `raw` telling
whether the enclosing element is a raw-text element.  Sink errors propagate
verbatim; nothing else can fail. -/
def serializeNode (w : Writer σ) (raw : Bool) : DomNode → σ → Except String σ
  | .node k cs, st =>
    match k with
    | .element name attrs =>
      match w st ("<" ++ name ++ attrsText attrs ++ ">") with
      | .error e => .error e
      | .ok st1 =>
        if isVoidElement name then .ok st1
        else
          match serializeChildren w (isRawTextElement name) cs st1 with
          | .error e => .error e
          | .ok st2 => w st2 ("</" ++ name ++ ">")
    | .text s => if raw then w st s else w st (escapeText s)
    | .comment s => w st ("<!--" ++ s ++ "-->")
    | .doctype name _ _ => w st ("<!DOCTYPE " ++ name ++ ">")
    | .document => serializeChildren w raw cs st
    | .fragment => serializeChildren w raw cs st
    | .processingInstruction target data => w st ("<?" ++ target ++ " " ++ data ++ ">")

/-- Serialize a child list left to right, stopping at the first sink
error. -/
def serializeChildren (w : Writer σ) (raw : Bool) : List DomNode → σ → Except String σ
  | [], st => .ok st
  | c :: cs, st =>
    match serializeNode w raw c st with
    | .error e => .error e
    | .ok st1 => serializeChildren w raw cs st1

end

/-- The in-memory sink of `Html::as_html`: appending to a growing string
buffer, which cannot fail. -/
def memWriter : Writer String := fun st s => .ok (st ++ s)

/-- Serialization to the in-memory buffer, as performed by `as_html`. -/
def serializeMem (d : DomNode) : Except String String :=
  serializeNode memWriter false d ""

/-- `Html::as_html` (lines 87–97): serialize into an in-memory buffer and
unwrap.  The `.error` arm embeds the source's `.unwrap()` panic branch. -/
def as_html (d : DomNode) : String :=
  match serializeMem d with
  | .ok s => s
  | .error _ => ""

/-- With a sink that never fails, serializing children never fails provided
serializing each child never fails. -/
theorem serializeChildren_ok_of {σ : Type} (w : Writer σ)
    (cs : List DomNode)
    (hcs : ∀ c ∈ cs, ∀ (raw : Bool) (st : σ),
      ∃ st', serializeNode w raw c st = .ok st') :
    ∀ (raw : Bool) (st : σ), ∃ st', serializeChildren w raw cs st = .ok st' := by
  induction cs with
  | nil => intro raw st; exact ⟨st, rfl⟩
  | cons c cs ih =>
    intro raw st
    obtain ⟨st1, h1⟩ := hcs c (by simp) raw st
    obtain ⟨st2, h2⟩ := ih (fun x hx => hcs x (by simp [hx])) raw st1
    refine ⟨st2, ?_⟩
    rw [serializeChildren, h1]
    exact h2

/-- With a sink that never fails, serializing any node never fails: the
error branch is unreachable. -/
theorem serializeNode_ok {σ : Type} (w : Writer σ)
    (hw : ∀ (st : σ) (s : String), ∃ st', w st s = .ok st') :
    ∀ (d : DomNode) (raw : Bool) (st : σ),
      ∃ st', serializeNode w raw d st = .ok st' := by
  intro d
  generalize hn : sizeOf d = n
  induction n using Nat.strong_induction_on generalizing d with
  | _ n ih =>
    cases d with
    | node k cs =>
      have hkids : ∀ c ∈ cs, ∀ (raw' : Bool) (st : σ),
          ∃ st', serializeNode w raw' c st = .ok st' := by
        intro c hc raw' st
        have hlt : sizeOf c < n := by
          subst hn
          have hmem := List.sizeOf_lt_of_mem hc
          simp only [DomNode.node.sizeOf_spec]
          omega
        exact ih (sizeOf c) hlt c rfl raw' st
      have hchildren := serializeChildren_ok_of w cs hkids
      intro raw st
      cases k with
      | element name attrs =>
        obtain ⟨st1, h1⟩ := hw st ("<" ++ name ++ attrsText attrs ++ ">")
        rw [serializeNode, h1]
        by_cases hv : isVoidElement name = true
        · simp [hv]
        · rw [Bool.not_eq_true] at hv
          simp only [hv, Bool.false_eq_true, if_false]
          obtain ⟨st2, h2⟩ := hchildren (isRawTextElement name) st1
          rw [h2]
          exact hw st2 ("</" ++ name ++ ">")
      | text s =>
        rw [serializeNode]
        cases raw with
        | true => simpa using hw st s
        | false => simpa using hw st (escapeText s)
      | comment s => rw [serializeNode]; exact hw st _
      | doctype name pu sy => rw [serializeNode]; exact hw st _
      | document => rw [serializeNode]; exact hchildren raw st
      | fragment => rw [serializeNode]; exact hchildren raw st
      | processingInstruction t dt => rw [serializeNode]; exact hw st _

/-- C6: serializing to the in-memory string is total — for every tree the
internal unwraps are unreachable: the serializer returns `ok` with exactly
the string `as_html` produces. -/
theorem as_html_total (d : DomNode) : serializeMem d = .ok (as_html d) := by
  obtain ⟨s, hs⟩ := serializeNode_ok memWriter (fun st s => ⟨st ++ s, rfl⟩) d false ""
  rw [serializeMem] at *
  rw [as_html, serializeMem, hs]

/-- The ordered child indices of the node at `id` (empty for an invalid
handle). -/
def Tree.childIds (t : Tree) (id : Nat) : List Nat :=
  match t.nodes.get? id with
  | some n => n.children
  | none => []

/-- The element children of `parentId`, in sibling order. -/
def Tree.elementSiblings (t : Tree) (parentId : Nat) : List Nat :=
  (t.childIds parentId).filter (fun i =>
    match t.nodes.get? i with
    | some n => n.value.is_element
    | none => false)

/-- The 1-based position of `id` among the element children of `parentId`,
when `id` is one of them. -/
def Tree.nthChildPosition (t : Tree) (parentId id : Nat) : Option Nat :=
  match (t.elementSiblings parentId).findIdx? (fun i => i == id) with
  | some i => some (i + 1)
  | none => none

/-- Modelled from the spec: the `:nth-child(an+b)` test of §4.2 (the
selector matcher is not under `src/`): with `a = 0` the test degenerates to
an exact-position check, otherwise the 1-based position must be positive and
congruent to `b` modulo `a`. -/
def nthChildCheck (a b : Int) (pos : Nat) : Bool :=
  if a = 0 then (pos : Int) == b
  else decide (0 < (pos : Int)) && (((pos : Int) - b) % a == 0)

/-- Modelled from the spec: whether `:nth-child(an+b)` matches the node
`id` under `parentId` — evaluate its 1-based position among its element
siblings and apply the check; nodes that are not element children never
match. -/
def Tree.nthChildMatches (a b : Int) (t : Tree) (parentId id : Nat) : Bool :=
  match t.nthChildPosition parentId id with
  | some pos => nthChildCheck a b pos
  | none => false

/-- C8: `:nth-child(an+b)` matches an element node exactly when its 1-based
position among its element siblings is positive and congruent to `b`
modulo `a`; for `a = 0` it matches exactly the node at position `b`. -/
theorem nth_child_congruence (a b : Int) (t : Tree) (parentId id pos : Nat)
    (hpos : t.nthChildPosition parentId id = some pos) :
    (t.nthChildMatches a b parentId id = true ↔
      if a = 0 then (pos : Int) = b
      else 0 < (pos : Int) ∧ (pos : Int) ≡ b [ZMOD a]) := by
  rw [Tree.nthChildMatches, hpos]
  unfold nthChildCheck
  by_cases ha : a = 0
  · simp [ha]
  · simp only [ha, if_false]
    rw [Bool.and_eq_true, decide_eq_true_iff, beq_iff_eq]
    constructor
    · rintro ⟨h1, h2⟩
      refine ⟨h1, ?_⟩
      rw [Int.modEq_iff_dvd]
      exact dvd_sub_comm.mp (Int.dvd_of_emod_eq_zero h2)
    · rintro ⟨h1, h2⟩
      refine ⟨h1, ?_⟩
      rw [Int.modEq_iff_dvd] at h2
      exact Int.emod_eq_zero_of_dvd (dvd_sub_comm.mp h2)

/-- Concrete fixture: a document root with three element children. -/
def exTree3 : Tree :=
  ⟨[⟨.document, none, [1, 2, 3]⟩, ⟨.element "p" [], some 0, []⟩,
    ⟨.element "p" [], some 0, []⟩, ⟨.element "p" [], some 0, []⟩]⟩

/-- Witness for C8: `:nth-child(2n+1)` on the third element child — its
position 3 is positive and congruent to 1 modulo 2, so it matches. -/
theorem nth_child_congruence_witness :
    exTree3.nthChildMatches 2 1 0 3 = true ↔
      if (2 : Int) = 0 then ((3 : Nat) : Int) = 1
      else 0 < ((3 : Nat) : Int) ∧ ((3 : Nat) : Int) ≡ 1 [ZMOD 2] :=
  nth_child_congruence 2 1 exTree3 0 3 3 (by decide)

end Htmler
